import Mathlib

/-!
Verification of the sharded-iterator and task/object-store contracts exercised
by the repository's notebooks (`ex_para_iter.ipynb`, `ex_remo_objs.ipynb`).
The notebooks call an external framework whose implementation is not part of
this repository, so the operations below are modelled from the specification,
anchored to the concrete behaviours the notebook outputs record (round-robin
sharding of `[1,2,3,4,5]` into `[1,3,5]` and `[2,4]`, the synchronous-gather
interleave, per-item fetch ordering of `for_each`, put/get round-trips and
get timeouts).
-/

namespace RayTutorial

/-- Modelled from the spec: the repository calls `ray.util.iter.from_items`
(not in this repository) to build a parallel iterator.  `shardGo n k l j`
collects the elements of `l` assigned to shard `k` when the element at
offset `j` (counting positions of the original sequence) goes to shard
`j % n` — the deterministic round-robin partition the spec names and the
notebook output (`shard[0] = [1,3,5]`, `shard[1] = [2,4]`) exhibits. -/
def shardGo {α : Type} (n k : Nat) : List α → Nat → List α
  | [], _ => []
  | x :: xs, j => (if j % n = k then [x] else []) ++ shardGo n k xs (j + 1)

/-- Modelled from the spec: `shard(sequence, n)` — the list of the `n`
round-robin shards of the sequence, in partition order. -/
def shard {α : Type} (l : List α) (n : Nat) : List (List α) :=
  (List.range n).map fun k => shardGo n k l 0

/-- One synchronous-gather round: pull the head of each shard, in shard
order, skipping exhausted shards. -/
def gatherRound {α : Type} (ss : List (List α)) : List α :=
  ss.filterMap List.head?

/-- Fuel-indexed round-robin pull across shards: each round takes one item
from every still-nonempty shard, in shard order. -/
def gatherGo {α : Type} : Nat → List (List α) → List α
  | 0, _ => []
  | fuel + 1, ss => gatherRound ss ++ gatherGo fuel (ss.map List.tail)

/-- Modelled from the spec: `gather_sync()` — pulls round-robin across the
shards, blocking on each shard in turn, producing the deterministic
interleave.  The total item count bounds the number of rounds, so it serves
as fuel. -/
def gather_sync {α : Type} (ss : List (List α)) : List α :=
  gatherGo (ss.map List.length).sum ss

/-- An observable event of a shard's production pipeline: fetching the
`i`-th item from the source, or applying the installed transform to it. -/
inductive Event where
  | fetch (i : Nat)
  | apply (i : Nat)
deriving DecidableEq

/-- The observable run of one shard's `for_each` pipeline: the event trace,
the `(state, item)` arguments passed to the transform, and the outputs. -/
structure RunResult (σ α β : Type) where
  trace : List Event
  calls : List (σ × α)
  outs : List β
deriving DecidableEq

/-- Modelled from the spec: the lazy per-shard pipeline built by
`for_each(transform)` (implemented by the external framework).  Consuming
the shard fetches one item, applies the stateful transform to it, and only
then proceeds to the next item: each step emits its fetch event, then its
apply event, records the `(state, item)` argument given to the transform,
and threads the updated state. -/
def for_each_run {σ α β : Type} (f : σ → α → σ × β) : σ → Nat → List α → RunResult σ α β
  | _, _, [] => ⟨[], [], []⟩
  | s, i, x :: xs =>
    let r := f s x
    let rest := for_each_run f r.1 (i + 1) xs
    ⟨Event.fetch i :: Event.apply i :: rest.trace, (s, x) :: rest.calls, r.2 :: rest.outs⟩

/-- Modelled from the spec: the output sequence a shard produces after
`for_each(transform)` is installed, starting the transform at state `s`. -/
def for_each {σ α β : Type} (f : σ → α → σ × β) (s : σ) (l : List α) : List β :=
  (for_each_run f s 0 l).outs

/-- The state of a stateful transform after consuming a prefix of its
shard: the fold of the state-update component along that prefix. -/
def statefulFold {σ α β : Type} (f : σ → α → σ × β) (s : σ) (l : List α) : σ :=
  l.foldl (fun a x => (f a x).1) s

/-- The notebook's `CumulativeSum` callable: state `total`; on input `x` it
updates `total += x` and returns `(total, x)`. -/
def CumulativeSum (total : Int) (x : Int) : Int × (Int × Int) :=
  (total + x, (total + x, x))

lemma shardGo_nil {α : Type} (n k j : Nat) : shardGo (α := α) n k [] j = [] := rfl

lemma flatten_map_nil {α β : Type} (L : List β) :
    ((L.map fun _ => ([] : List α)).flatten) = [] := by
  induction L with
  | nil => rfl
  | cons a L ih => simp [ih]

lemma perm_shuffle {α : Type} (u v A B : List α) :
    ((u ++ v) ++ (A ++ B)).Perm ((u ++ A) ++ (v ++ B)) := by
  have h : (v ++ (A ++ B)).Perm (A ++ (v ++ B)) := by
    have h2 : ((v ++ A) ++ B).Perm ((A ++ v) ++ B) :=
      List.perm_append_comm.append_right B
    simpa [List.append_assoc] using h2
  simpa [List.append_assoc] using h.append_left u

lemma flatten_map_append_perm {α β : Type} (L : List β) (f g : β → List α) :
    ((L.map fun k => f k ++ g k).flatten).Perm
      ((L.map f).flatten ++ (L.map g).flatten) := by
  induction L with
  | nil => simp
  | cons a L ih =>
    simp only [List.map_cons, List.flatten_cons]
    exact (ih.append_left (f a ++ g a)).trans (perm_shuffle (f a) (g a) _ _)

lemma flatten_map_single_of_not_mem {α : Type} (L : List Nat) (m : Nat) (x : α)
    (hm : m ∉ L) : ((L.map fun k => if m = k then [x] else []).flatten) = [] := by
  induction L with
  | nil => rfl
  | cons a L ih =>
    have ha : m ≠ a := fun h => hm (h ▸ List.mem_cons_self a L)
    have hL : m ∉ L := fun h => hm (List.mem_cons_of_mem a h)
    simp [ha, ih hL]

lemma flatten_map_single {α : Type} (L : List Nat) (m : Nat) (x : α)
    (hnd : L.Nodup) (hm : m ∈ L) :
    ((L.map fun k => if m = k then [x] else []).flatten) = [x] := by
  induction L with
  | nil => cases hm
  | cons a L ih =>
    rcases List.mem_cons.mp hm with h | h
    · subst h
      have hnot : m ∉ L := (List.nodup_cons.mp hnd).1
      simp [flatten_map_single_of_not_mem L m x hnot]
    · have ha : m ≠ a := fun he => (List.nodup_cons.mp hnd).1 (he ▸ h)
      simp [ha, ih (List.nodup_cons.mp hnd).2 h]

lemma shardGo_flatten_perm {α : Type} (l : List α) (n : Nat) (hn : 1 ≤ n) :
    ∀ j, (((List.range n).map fun k => shardGo n k l j).flatten).Perm l := by
  induction l with
  | nil => intro j; simp [shardGo_nil, flatten_map_nil]
  | cons x xs ih =>
    intro j
    have hstep : ((List.range n).map fun k => shardGo n k (x :: xs) j) =
        (List.range n).map fun k =>
          (if j % n = k then [x] else []) ++ shardGo n k xs (j + 1) := by
      simp [shardGo]
    rw [hstep]
    refine (flatten_map_append_perm (List.range n) _ _).trans ?_
    have hmem : j % n ∈ List.range n := List.mem_range.mpr (Nat.mod_lt _ hn)
    rw [flatten_map_single (List.range n) (j % n) x (List.nodup_range n) hmem]
    exact ((ih (j + 1)).append_left [x])

lemma shardGo_sublist {α : Type} (l : List α) (n k : Nat) :
    ∀ j, (shardGo n k l j).Sublist l := by
  induction l with
  | nil => intro j; simp [shardGo_nil]
  | cons x xs ih =>
    intro j
    by_cases h : j % n = k
    · simpa [shardGo, h] using (ih (j + 1)).cons₂ x
    · simpa [shardGo, h] using (ih (j + 1)).cons x

lemma for_each_run_trace_fetch {σ α β : Type} (f : σ → α → σ × β) :
    ∀ (l : List α) (s : σ) (j k : Nat), k < l.length →
      (for_each_run f s j l).trace[2 * k]? = some (Event.fetch (j + k)) := by
  intro l
  induction l with
  | nil => intro s j k hk; cases hk
  | cons x xs ih =>
    intro s j k hk
    cases k with
    | zero => simp [for_each_run]
    | succ k =>
      have hk' : k < xs.length := Nat.lt_of_succ_lt_succ hk
      have h2 : 2 * (k + 1) = 2 * k + 1 + 1 := by omega
      rw [h2]
      simp only [for_each_run, List.getElem?_cons_succ]
      have h3 := ih (f s x).1 (j + 1) k hk'
      have h4 : j + 1 + k = j + (k + 1) := by omega
      rw [h4] at h3
      exact h3

lemma for_each_run_trace_apply {σ α β : Type} (f : σ → α → σ × β) :
    ∀ (l : List α) (s : σ) (j k : Nat), k < l.length →
      (for_each_run f s j l).trace[2 * k + 1]? = some (Event.apply (j + k)) := by
  intro l
  induction l with
  | nil => intro s j k hk; cases hk
  | cons x xs ih =>
    intro s j k hk
    cases k with
    | zero => simp [for_each_run]
    | succ k =>
      have hk' : k < xs.length := Nat.lt_of_succ_lt_succ hk
      have h2 : 2 * (k + 1) + 1 = (2 * k + 1) + 1 + 1 := by omega
      rw [h2]
      simp only [for_each_run, List.getElem?_cons_succ]
      have h3 := ih (f s x).1 (j + 1) k hk'
      have h4 : j + 1 + k = j + (k + 1) := by omega
      rw [h4] at h3
      exact h3

lemma for_each_run_calls_get {σ α β : Type} (f : σ → α → σ × β) :
    ∀ (l : List α) (s : σ) (j k : Nat) (hk : k < l.length),
      (for_each_run f s j l).calls[k]? =
        some (statefulFold f s (l.take k), l.get ⟨k, hk⟩) := by
  intro l
  induction l with
  | nil => intro s j k hk; cases hk
  | cons x xs ih =>
    intro s j k hk
    cases k with
    | zero => simp [for_each_run, statefulFold]
    | succ k =>
      have hk' : k < xs.length := Nat.lt_of_succ_lt_succ hk
      simp only [for_each_run, List.getElem?_cons_succ, List.take_succ_cons,
        List.get_cons_succ]
      have h3 := ih (f s x).1 (j + 1) k hk'
      simpa [statefulFold] using h3

lemma for_each_run_outs {σ α β : Type} (f : σ → α → σ × β) :
    ∀ (l : List α) (s : σ) (j : Nat), (for_each_run f s j l).outs =
      match l with
      | [] => []
      | x :: xs => (f s x).2 :: (for_each_run f (f s x).1 (j + 1) xs).outs := by
  intro l
  cases l <;> intro s j <;> simp [for_each_run]

example : shard [1, 2, 3, 4, 5] 2 = [[1, 3, 5], [2, 4]] := by decide
example : gather_sync [[1, 3, 5], [2, 4]] = [1, 2, 3, 4, 5] := by decide
example : for_each CumulativeSum 0 [1, 3, 5] = [(1, 1), (4, 3), (9, 5)] := by decide

/-- C1: for every sequence `S` and every shard count `N ≥ 1`, `shard S N`
produces `N` shards; concatenating them in partition order is a permutation
of `S` in which each element of `S` appears exactly once (list permutation
is exactly multiset equality, so multiplicities are preserved); and the
relative order of the elements inside each individual shard matches their
order in `S` (each shard is a sublist of `S`). -/
theorem shard_partition {α : Type} (S : List α) (N : Nat) (hN : 1 ≤ N) :
    (shard S N).length = N ∧ ((shard S N).flatten).Perm S ∧
      ∀ t ∈ shard S N, t.Sublist S := by
  refine ⟨by simp [shard], ?_, ?_⟩
  · simpa [shard] using shardGo_flatten_perm S N hN 0
  · intro t ht
    rcases List.mem_map.mp ht with ⟨k, _, rfl⟩
    exact shardGo_sublist S N k 0

/-- Witness for `shard_partition` at `S = [1,2,3,4,5]`, `N = 2`. -/
theorem shard_partition_witness :
    1 ≤ 2 ∧ ((shard [1, 2, 3, 4, 5] 2).length = 2 ∧
      ((shard [1, 2, 3, 4, 5] 2).flatten).Perm [1, 2, 3, 4, 5] ∧
      ∀ t ∈ shard [1, 2, 3, 4, 5] 2, t.Sublist [1, 2, 3, 4, 5]) :=
  ⟨by decide, shard_partition [1, 2, 3, 4, 5] 2 (by decide)⟩

/-- C2: sharding `[1,2,3,4,5]` into 2 shards yields `shard0 = [1,3,5]` and
`shard1 = [2,4]` (round-robin partition), and `gather_sync` over these two
shards yields exactly `[1,2,3,4,5]` (round-robin interleave starting at
shard 0). -/
theorem shard_gather_sync_example :
    shard [1, 2, 3, 4, 5] 2 = [[1, 3, 5], [2, 4]] ∧
      gather_sync (shard [1, 2, 3, 4, 5] 2) = [1, 2, 3, 4, 5] := by decide

/-- C10: a stateful transform installed with `for_each` keeps independent
state per shard: the cumulative-sum transform over the shards of
`[1,2,3,4,5]` yields per-shard running totals `(1,1),(4,3),(9,5)` on shard 0
and `(2,2),(6,4)` on shard 1, so the `gather_sync` interleave is
`(1,1),(2,2),(4,3),(6,4),(9,5)` — shard-local prefix sums, not the global
prefix sums `1,3,6,10,15` that the same transform produces over the
unsharded sequence. -/
theorem for_each_per_shard_state :
    (shard [(1 : Int), 2, 3, 4, 5] 2).map (for_each CumulativeSum 0) =
      [[(1, 1), (4, 3), (9, 5)], [(2, 2), (6, 4)]] ∧
    gather_sync ((shard [(1 : Int), 2, 3, 4, 5] 2).map (for_each CumulativeSum 0)) =
      [(1, 1), (2, 2), (4, 3), (6, 4), (9, 5)] ∧
    (gather_sync ((shard [(1 : Int), 2, 3, 4, 5] 2).map
        (for_each CumulativeSum 0))).map Prod.fst ≠ [1, 3, 6, 10, 15] ∧
    (for_each CumulativeSum 0 [(1 : Int), 2, 3, 4, 5]).map Prod.fst =
      [1, 3, 6, 10, 15] := by decide

/-- C5: consuming a shard through a `for_each` pipeline applies the
transform to each item strictly before the next item is pulled from the
source: in the pipeline's event trace the `i`-th fetch sits at position
`2i` and the `i`-th application at position `2i+1`, so the `i`-th
application precedes the `(i+1)`-th fetch (position `2i+2`); moreover the
`i`-th call of the transform receives exactly the `i`-th item of the shard,
with the state obtained by folding the transform over the first `i` items —
a stateful transform observes the shard's items one at a time in shard
order. -/
theorem for_each_strict_ordering {σ α β : Type} (f : σ → α → σ × β) (s : σ)
    (l : List α) (i : Nat) (hi : i < l.length) :
    (for_each_run f s 0 l).trace[2 * i]? = some (Event.fetch i) ∧
    (for_each_run f s 0 l).trace[2 * i + 1]? = some (Event.apply i) ∧
    (i + 1 < l.length →
      (for_each_run f s 0 l).trace[2 * i + 2]? = some (Event.fetch (i + 1)) ∧
      2 * i + 1 < 2 * i + 2) ∧
    (for_each_run f s 0 l).calls[i]? =
      some (statefulFold f s (l.take i), l.get ⟨i, hi⟩) := by
  refine ⟨?_, ?_, ?_, ?_⟩
  · simpa using for_each_run_trace_fetch f l s 0 i hi
  · simpa using for_each_run_trace_apply f l s 0 i hi
  · intro h
    have h2 : 2 * i + 2 = 2 * (i + 1) := by omega
    rw [h2]
    exact ⟨by simpa using for_each_run_trace_fetch f l s 0 (i + 1) h, by omega⟩
  · exact for_each_run_calls_get f l s 0 i hi

/-- Witness for `for_each_strict_ordering`: the cumulative-sum transform on
shard `[1,3,5]` at item index 1. -/
theorem for_each_strict_ordering_witness :
    1 < ([1, 3, 5] : List Int).length ∧
    ((for_each_run CumulativeSum 0 0 [1, 3, 5]).trace[2 * 1]? =
        some (Event.fetch 1) ∧
      (for_each_run CumulativeSum 0 0 [1, 3, 5]).trace[2 * 1 + 1]? =
        some (Event.apply 1) ∧
      (1 + 1 < ([1, 3, 5] : List Int).length →
        (for_each_run CumulativeSum 0 0 [1, 3, 5]).trace[2 * 1 + 2]? =
          some (Event.fetch (1 + 1)) ∧ 2 * 1 + 1 < 2 * 1 + 2) ∧
      (for_each_run CumulativeSum 0 0 [1, 3, 5]).calls[1]? =
        some (statefulFold CumulativeSum 0 ([1, 3, 5].take 1),
          ([1, 3, 5] : List Int).get ⟨1, by decide⟩)) :=
  ⟨by decide, for_each_strict_ordering CumulativeSum 0 [1, 3, 5] 1 (by decide)⟩

/-- Modelled from the spec: the terminal state a handle can resolve to —
success-with-value or failure-with-error, never both. -/
inductive Outcome (α ε : Type) where
  | success (v : α)
  | failure (e : ε)
deriving DecidableEq

/-- Modelled from the spec: a Task is a unit of deferred work, a function
reference plus an argument snapshot; a raising body is modelled by the
function returning `Except.error`. -/
structure RTask (α ε : Type) where
  fn : α → Except ε α
  arg : α

/-- Running a task's body to completion: a normal return produces a
success outcome, a raised exception is captured as a failure outcome. -/
def evalTask {α ε : Type} (t : RTask α ε) : Outcome α ε :=
  match t.fn t.arg with
  | .ok v => .success v
  | .error e => .failure e

/-- Modelled from the spec: an object-store slot is either still pending
(holding its queued task) or holds the write-once terminal outcome. -/
inductive Entry (α ε : Type) where
  | pending (t : RTask α ε)
  | done (o : Outcome α ε)

/-- Modelled from the spec: the Object Store, a mapping from handle to
either a materialized outcome or a pending state.  Handles are the indices
at which slots were created. -/
structure Store (α ε : Type) where
  entries : List (Entry α ε)

/-- A handle is an opaque identifier for a future result; in the model it
is the slot index assigned at creation. -/
abbrev Handle := Nat

/-- The resolution of a handle, if any: `none` while the handle is
pending (or dangling), `some` its write-once outcome afterwards. -/
def resolvedAt {α ε : Type} (st : Store α ε) (h : Handle) : Option (Outcome α ε) :=
  match st.entries[h]? with
  | some (.done o) => some o
  | _ => none

/-- The error taxonomy of retrieval: `timeout` (deadline exceeded, handle
still pending) or `taskFailure` (the captured exception of the task body
attached to the handle). -/
inductive GetError (ε : Type) where
  | timeout
  | taskFailure (e : ε)
deriving DecidableEq

/-- Modelled from the spec: `put(value)` — synchronous, always succeeds,
appends an immediately-resolved slot and returns its handle. -/
def put {α ε : Type} (st : Store α ε) (v : α) : Store α ε × Handle :=
  (⟨st.entries ++ [.done (.success v)]⟩, st.entries.length)

/-- Modelled from the spec: `submit(fn, args)` — enqueues the work and
returns the new handle immediately; no failure of the body is surfaced at
submit time. -/
def submit {α ε : Type} (st : Store α ε) (t : RTask α ε) : Store α ε × Handle :=
  (⟨st.entries ++ [.pending t]⟩, st.entries.length)

/-- Modelled from the spec: worker completion — the worker that owns the
pending slot `h` runs its task to completion and writes the outcome; a
slot that is already resolved (or does not exist) is left untouched, since
resolution happens once. -/
def completeAt {α ε : Type} (st : Store α ε) (h : Handle) : Store α ε :=
  match st.entries[h]? with
  | some (.pending t) => ⟨st.entries.set h (.done (evalTask t))⟩
  | _ => st

/-- Modelled from the spec: `get(handle, timeout)` — blocks until resolved
or the timeout elapses.  Blocking time is abstracted: `get` inspects the
current store snapshot, in which nothing can resolve during the wait, so a
pending (or dangling) handle yields a `Timeout` error for every finite
timeout; a resolved handle yields its value, or surfaces the attached task
failure.  The store is returned unchanged. -/
def get {α ε : Type} (st : Store α ε) (h : Handle) (_timeout : Nat) :
    Except (GetError ε) α × Store α ε :=
  match st.entries[h]? with
  | some (.done (.success v)) => (.ok v, st)
  | some (.done (.failure e)) => (.error (.taskFailure e), st)
  | _ => (.error .timeout, st)

/-- How a terminal outcome is surfaced by retrieval: the value on success,
the attached task failure on failure. -/
def outcomeResult {α ε : Type} : Outcome α ε → Except (GetError ε) α
  | .success v => .ok v
  | .failure e => .error (.taskFailure e)

/-- The operations of the modelled system, as a step relation on stores:
submitting a task, putting a value, a worker completing a slot, and a
retrieval. -/
inductive Step {α ε : Type} : Store α ε → Store α ε → Prop where
  | putStep (st : Store α ε) (v : α) : Step st (put st v).1
  | submitStep (st : Store α ε) (t : RTask α ε) : Step st (submit st t).1
  | completeStep (st : Store α ε) (h : Handle) : Step st (completeAt st h)
  | getStep (st : Store α ε) (h : Handle) (tmo : Nat) :
      Step st (get st h tmo).2

lemma get_store_unchanged {α ε : Type} (st : Store α ε) (h : Handle)
    (timeout : Nat) : (get st h timeout).2 = st := by
  unfold get
  split <;> rfl

lemma getElem?_append_cons {α : Type} (pre : List α) (x : α) (l : List α) :
    (pre ++ x :: l)[pre.length]? = some x := by
  induction pre with
  | nil => simp
  | cons a pre ih => simpa using ih

lemma set_append_cons {α : Type} (pre : List α) (x y : α) (l : List α) :
    (pre ++ x :: l).set pre.length y = pre ++ y :: l := by
  induction pre with
  | nil => rfl
  | cons a pre ih => simp [List.set_cons_succ, ih]

lemma getElem?_concat_ne {α : Type} (l : List α) (b : α) (n : Nat)
    (hne : n ≠ l.length) : (l ++ [b])[n]? = l[n]? := by
  rcases Nat.lt_or_ge n l.length with hlt | hge
  · exact List.getElem?_append_left hlt
  · have h1 : (l ++ [b]).length ≤ n := by
      simp only [List.length_append, List.length_cons, List.length_nil]
      omega
    rw [List.getElem?_eq_none h1, List.getElem?_eq_none hge]

/-- C3: `get(h, t)` either surfaces the resolution of `h` — its value when
`h` resolved successfully (the attached task failure when it resolved to a
failure) — or, when `h` is not resolved within `t`, fails with a `Timeout`
error; on that failure the store is unchanged, so `h` remains pending, and
a retry `get(h, t')` is valid and returns the very same result
(idempotent). -/
theorem get_timeout_recoverable {α ε : Type} (st : Store α ε) (h : Handle)
    (t t' : Nat) :
    (∃ v, resolvedAt st h = some (.success v) ∧ get st h t = (.ok v, st)) ∨
    (∃ e, resolvedAt st h = some (.failure e) ∧
      get st h t = (.error (.taskFailure e), st)) ∨
    (resolvedAt st h = none ∧ get st h t = (.error .timeout, st) ∧
      get st h t' = (.error .timeout, st)) := by
  cases hl : st.entries[h]? with
  | none => exact Or.inr (Or.inr ⟨by simp [resolvedAt, hl], by simp [get, hl],
      by simp [get, hl]⟩)
  | some entry =>
    cases entry with
    | pending tk => exact Or.inr (Or.inr ⟨by simp [resolvedAt, hl],
        by simp [get, hl], by simp [get, hl]⟩)
    | done o =>
      cases o with
      | success v => exact Or.inl ⟨v, by simp [resolvedAt, hl], by simp [get, hl]⟩
      | failure e => exact Or.inr (Or.inl ⟨e, by simp [resolvedAt, hl],
          by simp [get, hl]⟩)

/-- C4: `put(v)` always succeeds (it is a total function), the returned
handle is resolved immediately to `v`, and `get` on that handle returns
`v` for every timeout — the round-trip `get(put(v)) = v` holds with no
timeout ever raised. -/
theorem put_get_roundtrip {α ε : Type} (st : Store α ε) (v : α) (t : Nat) :
    resolvedAt (put st v).1 (put st v).2 = some (.success v) ∧
    get (put st v).1 (put st v).2 t = (.ok v, (put st v).1) := by
  have hlook : ((put st v).1).entries[(put st v).2]? =
      some (Entry.done (Outcome.success v)) := by
    simp [put, List.getElem?_concat_length]
  exact ⟨by simp [resolvedAt, hlook], by simp [get, hlook]⟩

/-- C6: every handle reaches at most one terminal state — a slot cannot
hold success-with-value and failure-with-error at once — and once resolved
it never re-resolves: every operation of the system (submit, put, worker
completion, get) preserves the resolved outcome of every already-resolved
handle. -/
theorem handle_write_once {α ε : Type} (st st' : Store α ε) (hs : Step st st') :
    (∀ (h : Handle) (o : Outcome α ε), st.entries[h]? = some (Entry.done o) →
      st'.entries[h]? = some (Entry.done o)) ∧
    (∀ (h : Handle) (v : α) (e : ε),
      ¬(st.entries[h]? = some (Entry.done (Outcome.success v)) ∧
        st.entries[h]? = some (Entry.done (Outcome.failure e)))) := by
  constructor
  · intro h o hdone
    have hlt : h < st.entries.length := (List.getElem?_eq_some.mp hdone).1
    cases hs with
    | putStep v =>
      simpa [put, List.getElem?_append_left hlt] using hdone
    | submitStep tk =>
      simpa [submit, List.getElem?_append_left hlt] using hdone
    | completeStep h0 =>
      by_cases heq : h0 = h
      · subst heq
        simp [completeAt, hdone]
      · unfold completeAt
        split
        · simpa [List.getElem?_set_ne heq] using hdone
        · exact hdone
    | getStep h0 tmo =>
      rw [get_store_unchanged]
      exact hdone
  · intro h v e ⟨h1, h2⟩
    rw [h1] at h2
    simp at h2

/-- Witness for `handle_write_once`: a `put` step on a one-slot store. -/
theorem handle_write_once_witness :
    (∀ (h : Handle) (o : Outcome Nat Nat),
      (⟨[Entry.done (Outcome.success (0 : Nat))]⟩ :
        Store Nat Nat).entries[h]? = some (Entry.done o) →
      ((put (⟨[Entry.done (Outcome.success (0 : Nat))]⟩ : Store Nat Nat)
        1).1).entries[h]? = some (Entry.done o)) ∧
    (∀ (h : Handle) (v : Nat) (e : Nat),
      ¬((⟨[Entry.done (Outcome.success (0 : Nat))]⟩ :
          Store Nat Nat).entries[h]? = some (Entry.done (Outcome.success v)) ∧
        (⟨[Entry.done (Outcome.success (0 : Nat))]⟩ :
          Store Nat Nat).entries[h]? = some (Entry.done (Outcome.failure e)))) :=
  handle_write_once _ _
    (Step.putStep ⟨[Entry.done (Outcome.success (0 : Nat))]⟩ 1)

/-- C8: on a handle that is unresolved at the moment of the call,
`get(h, timeout := 0)` always fails with a `Timeout` error and, being a
total function, never blocks: a zero timeout is an immediate poll that
reports `Timeout` rather than waiting. -/
theorem get_zero_timeout {α ε : Type} (st : Store α ε) (h : Handle)
    (hp : resolvedAt st h = none) :
    get st h 0 = (.error .timeout, st) := by
  cases hl : st.entries[h]? with
  | none => simp [get, hl]
  | some entry =>
    cases entry with
    | pending tk => simp [get, hl]
    | done o => simp [resolvedAt, hl] at hp

/-- Witness for `get_zero_timeout`: a store whose only handle is pending. -/
theorem get_zero_timeout_witness :
    resolvedAt (⟨[Entry.pending ⟨fun x => Except.ok x, 0⟩]⟩ : Store Nat Nat)
        0 = none ∧
    get (⟨[Entry.pending ⟨fun x => Except.ok x, 0⟩]⟩ : Store Nat Nat) 0 0 =
      (Except.error GetError.timeout,
        ⟨[Entry.pending ⟨fun x => Except.ok x, 0⟩]⟩) :=
  ⟨rfl, get_zero_timeout _ 0 rfl⟩

/-- Modelled from the spec: submitting a batch of independent tasks —
each task gets its own fresh pending slot, in submission order. -/
def submitMany {α ε : Type} (st : Store α ε) (ts : List (RTask α ε)) : Store α ε :=
  ⟨st.entries ++ ts.map Entry.pending⟩

/-- Workers completing `n` consecutive handles starting at `h`. -/
def completeFrom {α ε : Type} (st : Store α ε) (h : Handle) : Nat → Store α ε
  | 0 => st
  | n + 1 => completeFrom (completeAt st h) (h + 1) n

/-- Modelled from the spec: the full life of a batch of `N` independent
tasks — submit them all, then let the workers run every one of them to
completion. -/
def runTasks {α ε : Type} (st : Store α ε) (ts : List (RTask α ε)) : Store α ε :=
  completeFrom (submitMany st ts) st.entries.length ts.length

/-- Retrieving a list of handles one after the other, threading the store
returned by each `get` into the next. -/
def retrieveSeq {α ε : Type} (st : Store α ε) (t : Nat) :
    List Handle → List (Handle × Except (GetError ε) α)
  | [] => []
  | h :: hs => (h, (get st h t).1) :: retrieveSeq (get st h t).2 t hs

lemma completeFrom_pending {α ε : Type} :
    ∀ (ts : List (RTask α ε)) (pre : List (Entry α ε)),
      completeFrom (⟨pre ++ ts.map Entry.pending⟩ : Store α ε) pre.length
          ts.length =
        ⟨pre ++ ts.map fun t => Entry.done (evalTask t)⟩ := by
  intro ts
  induction ts with
  | nil => intro pre; simp [completeFrom]
  | cons t ts ih =>
    intro pre
    have hlook : (pre ++ Entry.pending t :: ts.map Entry.pending)[pre.length]? =
        some (Entry.pending t) := getElem?_append_cons pre _ _
    have hca : completeAt (⟨pre ++ (t :: ts).map Entry.pending⟩ : Store α ε)
        pre.length = ⟨(pre ++ [Entry.done (evalTask t)]) ++ ts.map Entry.pending⟩ := by
      simp only [List.map_cons, completeAt, hlook,
        set_append_cons pre (Entry.pending t) (Entry.done (evalTask t))]
      simp
    have hstep : completeFrom (⟨pre ++ (t :: ts).map Entry.pending⟩ : Store α ε)
        pre.length (t :: ts).length =
        completeFrom (⟨(pre ++ [Entry.done (evalTask t)]) ++
          ts.map Entry.pending⟩ : Store α ε) (pre.length + 1) ts.length := by
      simp only [List.length_cons, completeFrom, hca]
    rw [hstep]
    have hlen : pre.length + 1 = (pre ++ [Entry.done (evalTask t)]).length := by simp
    rw [hlen, ih (pre ++ [Entry.done (evalTask t)])]
    simp

lemma runTasks_entries {α ε : Type} (st : Store α ε) (ts : List (RTask α ε)) :
    (runTasks st ts).entries =
      st.entries ++ ts.map fun t => Entry.done (evalTask t) := by
  show (completeFrom (⟨st.entries ++ ts.map Entry.pending⟩ : Store α ε)
    st.entries.length ts.length).entries = _
  rw [completeFrom_pending ts st.entries]

lemma retrieveSeq_map {α ε : Type} (st : Store α ε) (t : Nat) :
    ∀ hs : List Handle,
      retrieveSeq st t hs = hs.map fun h => (h, (get st h t).1) := by
  intro hs
  induction hs with
  | nil => rfl
  | cons h hs ih => simp [retrieveSeq, get_store_unchanged, ih]

/-- C7: after submitting `N` independent tasks and running them all, the
handle-to-result mapping is independent of the retrieval order: retrieving
any list of handles yields, for each handle, the result determined by that
handle alone (the threaded store never changes), two retrieval orders that
are permutations of one another yield permuted results, and the `i`-th
handle's result is exactly the outcome of the `i`-th submitted task. -/
theorem retrieval_order_independent {α ε : Type} (st : Store α ε)
    (ts : List (RTask α ε)) (t : Nat) (order order' : List Handle) (i : Nat)
    (tk : RTask α ε) (hperm : order.Perm order') (hi : ts[i]? = some tk) :
    retrieveSeq (runTasks st ts) t order =
      order.map (fun h => (h, (get (runTasks st ts) h t).1)) ∧
    (retrieveSeq (runTasks st ts) t order).Perm
      (retrieveSeq (runTasks st ts) t order') ∧
    (get (runTasks st ts) (st.entries.length + i) t).1 =
      outcomeResult (evalTask tk) := by
  refine ⟨retrieveSeq_map _ t order, ?_, ?_⟩
  · rw [retrieveSeq_map, retrieveSeq_map]
    exact hperm.map _
  · have hlook : (runTasks st ts).entries[st.entries.length + i]? =
        some (Entry.done (evalTask tk)) := by
      rw [runTasks_entries, List.getElem?_append_right (Nat.le_add_right _ _)]
      simp [hi]
    cases hev : evalTask tk with
    | success v => simp [get, hlook, hev, outcomeResult]
    | failure e => simp [get, hlook, hev, outcomeResult]

/-- Witness for `retrieval_order_independent`: two tasks retrieved in both
orders; handle 0 carries the first task's result `ok 2`. -/
theorem retrieval_order_independent_witness :
    ([0, 1] : List Nat).Perm [1, 0] ∧
    ([(⟨fun x => Except.ok (x + 1), 1⟩ : RTask Nat Nat),
        ⟨fun _ => Except.error 7, 0⟩][0]? =
      some (⟨fun x => Except.ok (x + 1), 1⟩ : RTask Nat Nat)) ∧
    (get (runTasks (⟨[]⟩ : Store Nat Nat)
        [⟨fun x => Except.ok (x + 1), 1⟩, ⟨fun _ => Except.error 7, 0⟩]) 0 5).1 =
      Except.ok 2 :=
  ⟨by decide, rfl,
    ((retrieval_order_independent ⟨[]⟩
        [⟨fun x => Except.ok (x + 1), 1⟩, ⟨fun _ => Except.error 7, 0⟩] 5
        [0, 1] [1, 0] 0 _ (by decide) rfl).2.2).trans rfl⟩

/-- C9: a submitted task whose body raises surfaces nothing at submit time
(the fresh handle is simply pending), the captured failure is attached as a
`TaskFailure` to that task's own handle when the worker completes it and is
surfaced only when that handle is retrieved, and every other handle's slot
is left exactly unchanged by the completion. -/
theorem task_failure_isolated {α ε : Type} (st : Store α ε) (tk : RTask α ε)
    (e : ε) (he : tk.fn tk.arg = .error e) (t : Nat) (h' : Handle)
    (hne : h' ≠ (submit st tk).2) :
    ((submit st tk).1).entries[(submit st tk).2]? = some (Entry.pending tk) ∧
    get (completeAt (submit st tk).1 (submit st tk).2) (submit st tk).2 t =
      (.error (.taskFailure e),
        completeAt (submit st tk).1 (submit st tk).2) ∧
    (completeAt (submit st tk).1 (submit st tk).2).entries[h']? =
      st.entries[h']? := by
  have hlook : ((submit st tk).1).entries[(submit st tk).2]? =
      some (Entry.pending tk) := by
    simp [submit, List.getElem?_concat_length]
  have hev : evalTask tk = Outcome.failure e := by simp [evalTask, he]
  have hset : (st.entries ++ [Entry.pending tk]).set st.entries.length
      (Entry.done (Outcome.failure e)) = st.entries ++ [Entry.done (Outcome.failure e)] :=
    set_append_cons st.entries (Entry.pending tk) (Entry.done (Outcome.failure e)) []
  have hca : completeAt (submit st tk).1 (submit st tk).2 =
      ⟨st.entries ++ [Entry.done (Outcome.failure e)]⟩ := by
    simp [completeAt, hlook, hev]
    exact hset
  refine ⟨hlook, ?_, ?_⟩
  · have hlook2 : (⟨st.entries ++ [Entry.done (Outcome.failure e)]⟩ :
        Store α ε).entries[st.entries.length]? =
        some (Entry.done (Outcome.failure e)) :=
      List.getElem?_concat_length st.entries (Entry.done (Outcome.failure e))
    rw [hca]
    simp [get, hlook2, submit]
  · rw [hca]
    exact getElem?_concat_ne st.entries (Entry.done (Outcome.failure e)) h' hne

/-- Witness for `task_failure_isolated`: a raising task submitted next to
an already-resolved sibling handle 0, which is left unchanged. -/
theorem task_failure_isolated_witness :
    ((⟨fun _ => Except.error 7, 0⟩ : RTask Nat Nat).fn
        (⟨fun _ => Except.error 7, 0⟩ : RTask Nat Nat).arg = Except.error 7) ∧
    ((0 : Nat) ≠ (submit (⟨[Entry.done (Outcome.success 5)]⟩ : Store Nat Nat)
        ⟨fun _ => Except.error 7, 0⟩).2) ∧
    ((completeAt (submit (⟨[Entry.done (Outcome.success 5)]⟩ : Store Nat Nat)
          ⟨fun _ => Except.error 7, 0⟩).1
        (submit (⟨[Entry.done (Outcome.success 5)]⟩ : Store Nat Nat)
          ⟨fun _ => Except.error 7, 0⟩).2).entries[(0 : Nat)]? =
      (⟨[Entry.done (Outcome.success 5)]⟩ : Store Nat Nat).entries[(0 : Nat)]?) :=
  ⟨rfl, by decide,
    (task_failure_isolated ⟨[Entry.done (Outcome.success 5)]⟩
      ⟨fun _ => Except.error 7, 0⟩ 7 rfl 3 0 (by decide)).2.2⟩

end RayTutorial
